import Mathlib

/-
  Verification of the bf compiler and virtual machine.

  Shallow embedding of the sources:
    src/lexer.rs   – Token, TokenLoc, Lexer::parse
    src/opcodes.rs – OpCodeType, OpCode
    src/parser.rs  – Parser::parse (run-length folding, bracket backpatching)
    src/vm.rs      – Vm (tape, cursor, program counter, execution loop)

  Machine integers (usize, u8) are modelled as Nat with explicit modular
  reduction where the source wraps. Byte I/O on stdin and stdout is modelled
  as lists of byte values carried in the machine state. Fallible operations
  return Except, with the error value paired with the machine state that the
  aborted Rust method leaves behind in self.
-/

set_option autoImplicit false

/-- Bytes of an ASCII source string, as the lexer consumes src.as_bytes(). -/
def bytes (s : String) : List Nat := s.data.map Char.toNat

/-- The eight token kinds of lexer.rs (enum Token). -/
inductive Token where
  | plus | minus | less | greater | lbracket | rbracket | comma | dot
deriving DecidableEq

/-- Token::from_u8: the eight recognized byte values; every other byte is None. -/
def Token.from_u8 (ch : Nat) : Option Token :=
  match ch with
  | 43 => some Token.plus
  | 45 => some Token.minus
  | 60 => some Token.less
  | 62 => some Token.greater
  | 91 => some Token.lbracket
  | 93 => some Token.rbracket
  | 44 => some Token.comma
  | 46 => some Token.dot
  | _ => none

/-- Token::is_loop_token. -/
def Token.is_loop_token (t : Token) : Bool :=
  match t with
  | Token.lbracket | Token.rbracket => true
  | _ => false

/-- Token::is_groupable: everything except the two loop tokens. -/
def Token.is_groupable (t : Token) : Bool := !t.is_loop_token

/-- Source location (struct TokenLoc): column and line counters. -/
structure TokenLoc where
  col : Nat
  line : Nat
deriving DecidableEq

/-- TokenLoc::new starts at column 0, line 1. -/
def TokenLoc.new : TokenLoc := ⟨0, 1⟩

/-- TokenLoc::update_location: a newline (byte 10) resets the column and
bumps the line; any other byte bumps the column. -/
def TokenLoc.update_location (loc : TokenLoc) (ch : Nat) : TokenLoc :=
  if ch = 10 then ⟨0, loc.line + 1⟩ else ⟨loc.col + 1, loc.line⟩

/-- A token paired with its location (type TokenData in parser.rs). -/
abbrev TokenData := Token × TokenLoc

/-- The token list produced by the lexer (type TokenList). -/
abbrev TokenList := List TokenData

/-- Lexer::parse body: scan each byte, update the location first, and keep
the recognized tokens tagged with the location reached after the byte. -/
def lexGo (src : List Nat) (loc : TokenLoc) : TokenList :=
  match src with
  | [] => []
  | ch :: rest =>
    match Token.from_u8 ch with
    | some t => (t, loc.update_location ch) :: lexGo rest (loc.update_location ch)
    | none => lexGo rest (loc.update_location ch)

/-- lexer::parse: run the lexer from the initial location. -/
def Lexer.parse (src : List Nat) : TokenList := lexGo src TokenLoc.new

/-- The eight opcodes of opcodes.rs (enum OpCodeType). -/
inductive OpCodeType where
  | add | sub | shiftLeft | shiftRight | jmpZero | jmpNotZero | inputChar | printChar
deriving DecidableEq

/-- An opcode with its usize operand (struct OpCode). -/
structure OpCode where
  ty : OpCodeType
  data : Nat
deriving DecidableEq

/-- The value usize::MAX, used by the parser as the unresolved jump sentinel. -/
def usizeMax : Nat := 2 ^ 64 - 1

/-- OpCode::from_token: the token-to-opcode table. -/
def OpCode.from_token (t : Token) (data : Nat) : OpCode :=
  match t with
  | Token.plus => ⟨OpCodeType.add, data⟩
  | Token.minus => ⟨OpCodeType.sub, data⟩
  | Token.less => ⟨OpCodeType.shiftLeft, data⟩
  | Token.greater => ⟨OpCodeType.shiftRight, data⟩
  | Token.lbracket => ⟨OpCodeType.jmpZero, data⟩
  | Token.rbracket => ⟨OpCodeType.jmpNotZero, data⟩
  | Token.comma => ⟨OpCodeType.inputChar, data⟩
  | Token.dot => ⟨OpCodeType.printChar, data⟩

/-- A compiled program (type Program = Vec of OpCode). -/
abbrev Program := List OpCode

/-- Total list indexing with an explicit default, standing for Vec indexing
whose index is in bounds at every reachable call site. -/
def getAt {α : Type} (d : α) : List α → Nat → α
  | [], _ => d
  | a :: _, 0 => a
  | _ :: rest, Nat.succ i => getAt d rest i

/-- Indexing into a program; the default is never reached on in-bounds use. -/
def opAt (p : Program) (i : Nat) : OpCode := getAt ⟨OpCodeType.add, 0⟩ p i

/-- Compile errors of Parser: the two anyhow messages, with the data the
source interpolates into them (location, and the remaining open count for
the unclosed case, printed only when it exceeds one). -/
inductive ParseError where
  | unexpectedRBracket (loc : TokenLoc)
  | unclosedLBracket (loc : TokenLoc) (remaining : Nat)
deriving DecidableEq

/-- The run-scanning loop inside Parser::count_current_token: count the
immediately following tokens equal to the current one and drop them. -/
def countRun (t : Token) : TokenList → Nat × TokenList
  | [] => (0, [])
  | td :: rest =>
    if td.1 = t then
      ((countRun t rest).1 + 1, (countRun t rest).2)
    else
      (0, td :: rest)

/-- Parser::count_current_token: counter starts at 1 for the consumed
current token; only groupable tokens extend the run. -/
def Parser.count_current_token (t : Token) (rest : TokenList) : Nat × TokenList :=
  if t.is_groupable then (1 + (countRun t rest).1, (countRun t rest).2)
  else (1, rest)

/-- In-place operand patch: self.program[i].data = d, keeping the opcode. -/
def patchData (prog : Program) (i d : Nat) : Program :=
  prog.set i ⟨(opAt prog i).ty, d⟩

/-- The Parser::parse loop. State: remaining tokens, the lbracket_locations
stack (innermost first, carrying the emitted index of each open LoopStart),
and the program emitted so far (whose length is opcode_count).
LoopStart pushes its index and emits a sentinel JmpZero; LoopEnd pops,
patches the popped JmpZero operand to the current index, and emits a
JmpNotZero pointing back at the popped index; other tokens fold their run.
End of input with a non-empty stack is the unclosed-delimiter error naming
the innermost location and the full remaining count. -/
def Parser.parseGo (ts : TokenList) (stk : List (TokenLoc × Nat)) (prog : Program) :
    Except ParseError Program :=
  match ts with
  | [] =>
    match stk with
    | [] => Except.ok prog
    | (loc, _) :: stk2 => Except.error (ParseError.unclosedLBracket loc (stk2.length + 1))
  | (tok, loc) :: rest =>
    match tok with
    | Token.lbracket =>
      Parser.parseGo rest ((loc, prog.length) :: stk)
        (prog ++ [⟨OpCodeType.jmpZero, usizeMax⟩])
    | Token.rbracket =>
      match stk with
      | [] => Except.error (ParseError.unexpectedRBracket loc)
      | (_, lidx) :: stk2 =>
        Parser.parseGo rest stk2
          (patchData prog lidx prog.length ++ [⟨OpCodeType.jmpNotZero, lidx⟩])
    | _ =>
      Parser.parseGo (Parser.count_current_token tok rest).2 stk
        (prog ++ [OpCode.from_token tok (Parser.count_current_token tok rest).1])
termination_by ts.length
decreasing_by
  · simp
  · simp
  · have h : ∀ (l : TokenList), (countRun tok l).2.length ≤ l.length := by
      intro l
      induction l with
      | nil => simp [countRun]
      | cons td r ih =>
        rw [countRun]
        by_cases hh : td.1 = tok
        · rw [if_pos hh]
          exact Nat.le_succ_of_le ih
        · rw [if_neg hh]
    simp only [Parser.count_current_token, List.length_cons]
    split
    · exact Nat.lt_succ_of_le (h rest)
    · exact Nat.lt_succ_self _

/-- parser::parse: run the parser loop with an empty stack and program. -/
def Parser.parse (ts : TokenList) : Except ParseError Program :=
  Parser.parseGo ts [] []

/-- Reference bracket scanner, written from the specification's description
of bracket matching: walk the tokens with a stack of open LoopStart
locations (innermost first); a LoopEnd with an empty stack is the offending
location, groupable tokens are inert, and the final stack is what remains
open at end of input. Used to state what the parser's error cases report. -/
def bracketScan (ts : TokenList) (stk : List TokenLoc) : Except TokenLoc (List TokenLoc) :=
  match ts with
  | [] => Except.ok stk
  | (tok, loc) :: rest =>
    match tok with
    | Token.lbracket => bracketScan rest (loc :: stk)
    | Token.rbracket =>
      match stk with
      | [] => Except.error loc
      | _ :: stk2 => bracketScan rest stk2
    | _ => bracketScan rest stk

/-- Runtime and validation errors of vm.rs, with the data the source
interpolates into the bail messages. -/
inductive VmError where
  | operandOutOfRange (data : Nat)
  | memOverflow (memCount : Nat) (overflowed : Nat)
  | inputEof
deriving DecidableEq

/-- The constant DEFAULT_VM_MEM_SIZE. -/
def DEFAULT_VM_MEM_SIZE : Nat := 30000

/-- Machine state (struct Vm): program, program counter, tape, cursor.
The ambient process streams read by InputChar and written by PrintChar are
modelled as byte lists carried in the state. -/
structure Vm where
  program : Program
  pc : Nat
  mem : List Nat
  mem_ptr : Nat
  stdin : List Nat
  stdout : List Nat
deriving DecidableEq

/-- Vm::get_cell: read the current cell (unchecked access in the source,
relying on the cursor bound; total here with default 0). -/
def Vm.get_cell (vm : Vm) : Nat := getAt 0 vm.mem vm.mem_ptr

/-- Write the current cell, as through Vm::get_cell_mut. -/
def Vm.set_cell (vm : Vm) (v : Nat) : Vm :=
  { vm with mem := vm.mem.set vm.mem_ptr v }

/-- Vm::add_to_cell: wrapping_add of the operand truncated to u8. -/
def Vm.add_to_cell (vm : Vm) (amount : Nat) : Vm :=
  vm.set_cell ((vm.get_cell + amount % 256) % 256)

/-- Vm::sub_to_cell: wrapping_sub of the operand truncated to u8. -/
def Vm.sub_to_cell (vm : Vm) (amount : Nat) : Vm :=
  vm.set_cell ((vm.get_cell + (256 - amount % 256)) % 256)

/-- Vm::shift_left: saturating_sub on the cursor; cannot fail. -/
def Vm.shift_left (vm : Vm) (amount : Nat) : Vm :=
  { vm with mem_ptr := vm.mem_ptr - amount }

/-- Vm::shift_right: the cursor is advanced first; if the advanced cursor
reaches the tape length the method bails, reporting the tape length and the
overflow amount, with the advanced cursor left in place. -/
def Vm.shift_right (vm : Vm) (amount : Nat) : Except (VmError × Vm) Vm :=
  if vm.mem.length ≤ vm.mem_ptr + amount then
    Except.error (VmError.memOverflow vm.mem.length (vm.mem_ptr + amount - vm.mem.length),
      { vm with mem_ptr := vm.mem_ptr + amount })
  else
    Except.ok { vm with mem_ptr := vm.mem_ptr + amount }

/-- Vm::jump_zero: set pc to the target when the current cell is zero. -/
def Vm.jump_zero (vm : Vm) (target : Nat) : Vm :=
  if vm.get_cell = 0 then { vm with pc := target } else vm

/-- Vm::jump_not_zero: set pc to the target when the current cell is not zero. -/
def Vm.jump_not_zero (vm : Vm) (target : Nat) : Vm :=
  if vm.get_cell ≠ 0 then { vm with pc := target } else vm

/-- Vm::print_chars: write the current cell to stdout, amount times. -/
def Vm.print_chars (vm : Vm) (amount : Nat) : Vm :=
  { vm with stdout := vm.stdout ++ List.replicate amount vm.get_cell }

/-- Vm::input_char: read exactly one byte from stdin into the current cell,
ignoring the operand; an exhausted stdin is a read_exact failure. -/
def Vm.input_char (vm : Vm) (_amount : Nat) : Except (VmError × Vm) Vm :=
  match vm.stdin with
  | [] => Except.error (VmError.inputEof, vm)
  | c :: rest => Except.ok ({ vm with stdin := rest }.set_cell (c % 256))

/-- The pc increment at the bottom of the dispatch loop in Vm::run. -/
def Vm.inc_pc (vm : Vm) : Vm := { vm with pc := vm.pc + 1 }

/-- One iteration of the Vm::run loop body: fetch the instruction at pc,
dispatch on its opcode, then advance pc by one. The two fallible dispatches
propagate their error before the pc increment, as the question-mark
operator does in the source. -/
def Vm.step (vm : Vm) : Except (VmError × Vm) Vm :=
  match (opAt vm.program vm.pc).ty with
  | OpCodeType.add => Except.ok (vm.add_to_cell (opAt vm.program vm.pc).data).inc_pc
  | OpCodeType.sub => Except.ok (vm.sub_to_cell (opAt vm.program vm.pc).data).inc_pc
  | OpCodeType.shiftLeft => Except.ok (vm.shift_left (opAt vm.program vm.pc).data).inc_pc
  | OpCodeType.shiftRight => (vm.shift_right (opAt vm.program vm.pc).data).map Vm.inc_pc
  | OpCodeType.jmpZero => Except.ok (vm.jump_zero (opAt vm.program vm.pc).data).inc_pc
  | OpCodeType.jmpNotZero => Except.ok (vm.jump_not_zero (opAt vm.program vm.pc).data).inc_pc
  | OpCodeType.inputChar => (vm.input_char (opAt vm.program vm.pc).data).map Vm.inc_pc
  | OpCodeType.printChar => Except.ok (vm.print_chars (opAt vm.program vm.pc).data).inc_pc

/-- Outcome of running the machine with a fuel bound on loop iterations. -/
inductive RunResult where
  | done (vm : Vm)
  | fail (e : VmError) (vm : Vm)
  | fuelOut (vm : Vm)
deriving DecidableEq

/-- Vm::run: loop while pc is below the program length, stepping once per
iteration and stopping at the first error, which carries the machine state
the aborted source method leaves behind. -/
def Vm.run : Nat → Vm → RunResult
  | 0, vm => RunResult.fuelOut vm
  | Nat.succ fuel, vm =>
    if vm.pc < vm.program.length then
      match vm.step with
      | Except.ok vm2 => Vm.run fuel vm2
      | Except.error (e, vm2) => RunResult.fail e vm2
    else
      RunResult.done vm

/-- Vm::verify_program: every Add or Sub operand must be strictly below
u8::MAX, which is 255; the first offender aborts validation. -/
def Vm.verify_program : Program → Except VmError Unit
  | [] => Except.ok ()
  | op :: rest =>
    match op.ty with
    | OpCodeType.add | OpCodeType.sub =>
      if 255 ≤ op.data then Except.error (VmError.operandOutOfRange op.data)
      else Vm.verify_program rest
    | _ => Vm.verify_program rest

/-- Vm::from_program: build the machine with a zero tape of the default
size, cursor 0 and pc 0, then validate; validation failure discards the
machine before any execution. The stdin argument models the ambient input
stream the source reads from the process. -/
def Vm.from_program (program : Program) (stdin : List Nat) : Except VmError Vm :=
  (Vm.verify_program program).map
    (fun _ => ⟨program, 0, List.replicate DEFAULT_VM_MEM_SIZE 0, 0, stdin, []⟩)

/-- Indices recorded on the parser's open-bracket stack. -/
def stackIdxs (stk : List (TokenLoc × Nat)) : List Nat := stk.map Prod.snd

/-- An instruction index not currently open on the parser's stack. -/
def ClosedAt (stk : List (TokenLoc × Nat)) (i : Nat) : Prop := i ∉ stackIdxs stk

/-- Every stack entry points at an already-emitted JmpZero, and entries are
strictly decreasing from the innermost (most recent) one. -/
def StackOk (stk : List (TokenLoc × Nat)) (p : Program) : Prop :=
  (∀ e ∈ stk, e.2 < p.length ∧ (opAt p e.2).ty = OpCodeType.jmpZero) ∧
  stk.Pairwise (fun a b => b.2 < a.2)

/-- Mid-compilation pairing invariant: every emitted JmpNotZero already
points back at a closed JmpZero that points at it, and every JmpZero that is
no longer open on the stack points forward at a JmpNotZero pointing back. -/
def PairOk (stk : List (TokenLoc × Nat)) (p : Program) : Prop :=
  ∀ i, i < p.length →
    ((opAt p i).ty = OpCodeType.jmpNotZero →
      (opAt p i).data < i ∧
      (opAt p (opAt p i).data).ty = OpCodeType.jmpZero ∧
      (opAt p (opAt p i).data).data = i ∧
      ClosedAt stk (opAt p i).data) ∧
    ((opAt p i).ty = OpCodeType.jmpZero → ClosedAt stk i →
      i < (opAt p i).data ∧
      (opAt p i).data < p.length ∧
      (opAt p (opAt p i).data).ty = OpCodeType.jmpNotZero ∧
      (opAt p (opAt p i).data).data = i)

/-- The parser loop invariant. -/
def ParserInv (stk : List (TokenLoc × Nat)) (p : Program) : Prop :=
  StackOk stk p ∧ PairOk stk p

/-- Jump targets of a compiled program are mutually matched: each JmpZero
operand names a later JmpNotZero whose operand names it back, and each
JmpNotZero operand names an earlier JmpZero whose operand names it back. -/
def JumpsMatched (p : Program) : Prop :=
  ∀ i, i < p.length →
    ((opAt p i).ty = OpCodeType.jmpZero →
      i < (opAt p i).data ∧
      (opAt p i).data < p.length ∧
      (opAt p (opAt p i).data).ty = OpCodeType.jmpNotZero ∧
      (opAt p (opAt p i).data).data = i) ∧
    ((opAt p i).ty = OpCodeType.jmpNotZero →
      (opAt p i).data < i ∧
      (opAt p (opAt p i).data).ty = OpCodeType.jmpZero ∧
      (opAt p (opAt p i).data).data = i)

theorem getAt_append_lt {α : Type} (d : α) (l l2 : List α) (i : Nat) (h : i < l.length) :
    getAt d (l ++ l2) i = getAt d l i := by
  induction l generalizing i with
  | nil => simp at h
  | cons a rest ih =>
    cases i with
    | zero => rfl
    | succ j =>
      simp only [List.cons_append, getAt]
      exact ih j (by simpa using h)

theorem getAt_append_self {α : Type} (d : α) (l : List α) (a : α) :
    getAt d (l ++ [a]) l.length = a := by
  induction l with
  | nil => rfl
  | cons b rest ih => simpa [getAt] using ih

theorem getAt_set_self {α : Type} (d : α) (l : List α) (j : Nat) (b : α) (h : j < l.length) :
    getAt d (l.set j b) j = b := by
  induction l generalizing j with
  | nil => simp at h
  | cons a rest ih =>
    cases j with
    | zero => rfl
    | succ j2 =>
      simp only [List.set_cons_succ, getAt]
      exact ih j2 (by simpa using h)

theorem getAt_set_ne {α : Type} (d : α) (l : List α) (i j : Nat) (b : α) (h : i ≠ j) :
    getAt d (l.set j b) i = getAt d l i := by
  induction l generalizing i j with
  | nil => simp [List.set]
  | cons a rest ih =>
    cases j with
    | zero =>
      cases i with
      | zero => exact absurd rfl h
      | succ i2 => rfl
    | succ j2 =>
      cases i with
      | zero => rfl
      | succ i2 =>
        simp only [List.set_cons_succ, getAt]
        exact ih i2 j2 (fun hc => h (by rw [hc]))

theorem countRun_len_le (t : Token) (l : TokenList) :
    (countRun t l).2.length ≤ l.length := by
  induction l with
  | nil => simp [countRun]
  | cons td r ih =>
    rw [countRun]
    by_cases hh : td.1 = t
    · rw [if_pos hh]
      exact Nat.le_succ_of_le ih
    · rw [if_neg hh]

theorem countRun_of_run (t : Token) (locs : List TokenLoc) (rest : TokenList)
    (hrest : ∀ td ∈ rest.head?, td.1 ≠ t) :
    countRun t (locs.map (fun l => (t, l)) ++ rest) = (locs.length, rest) := by
  induction locs with
  | nil =>
    cases rest with
    | nil => rfl
    | cons td r2 =>
      have : td.1 ≠ t := hrest td (by simp)
      simp [countRun, this]
  | cons l locs2 ih =>
    simp only [List.map_cons, List.cons_append, countRun, if_pos]
    simp only [List.append_eq, ih, List.length_cons]

theorem Vm.step_add (vm : Vm) (h : (opAt vm.program vm.pc).ty = OpCodeType.add) :
    vm.step = Except.ok (vm.add_to_cell (opAt vm.program vm.pc).data).inc_pc := by
  simp [Vm.step, h]

theorem Vm.step_sub (vm : Vm) (h : (opAt vm.program vm.pc).ty = OpCodeType.sub) :
    vm.step = Except.ok (vm.sub_to_cell (opAt vm.program vm.pc).data).inc_pc := by
  simp [Vm.step, h]

theorem Vm.step_shift_left (vm : Vm) (h : (opAt vm.program vm.pc).ty = OpCodeType.shiftLeft) :
    vm.step = Except.ok (vm.shift_left (opAt vm.program vm.pc).data).inc_pc := by
  simp [Vm.step, h]

theorem Vm.step_shift_right (vm : Vm) (h : (opAt vm.program vm.pc).ty = OpCodeType.shiftRight) :
    vm.step = (vm.shift_right (opAt vm.program vm.pc).data).map Vm.inc_pc := by
  simp [Vm.step, h]

theorem Vm.step_jump_zero (vm : Vm) (h : (opAt vm.program vm.pc).ty = OpCodeType.jmpZero) :
    vm.step = Except.ok (vm.jump_zero (opAt vm.program vm.pc).data).inc_pc := by
  simp [Vm.step, h]

theorem Vm.step_jump_not_zero (vm : Vm) (h : (opAt vm.program vm.pc).ty = OpCodeType.jmpNotZero) :
    vm.step = Except.ok (vm.jump_not_zero (opAt vm.program vm.pc).data).inc_pc := by
  simp [Vm.step, h]

theorem Vm.step_input (vm : Vm) (h : (opAt vm.program vm.pc).ty = OpCodeType.inputChar) :
    vm.step = (vm.input_char (opAt vm.program vm.pc).data).map Vm.inc_pc := by
  simp [Vm.step, h]

theorem Vm.step_print (vm : Vm) (h : (opAt vm.program vm.pc).ty = OpCodeType.printChar) :
    vm.step = Except.ok (vm.print_chars (opAt vm.program vm.pc).data).inc_pc := by
  simp [Vm.step, h]

theorem except_map_error {ε α β : Type} (f : α → β) (x : Except ε α) (e : ε) :
    x.map f = Except.error e ↔ x = Except.error e := by
  cases x with
  | ok a => simp [Except.map]
  | error e2 => simp [Except.map]

theorem except_map_ok {ε α β : Type} (f : α → β) (x : Except ε α) (b : β) :
    x.map f = Except.ok b ↔ ∃ a, x = Except.ok a ∧ b = f a := by
  cases x with
  | ok a => simp [Except.map, eq_comm]
  | error e2 => simp [Except.map]

theorem verify_program_ok_iff (p : Program) :
    Vm.verify_program p = Except.ok () ↔
      ∀ op ∈ p, (op.ty = OpCodeType.add ∨ op.ty = OpCodeType.sub) → op.data < 255 := by
  induction p with
  | nil => simp [Vm.verify_program]
  | cons op rest ih =>
    rw [Vm.verify_program]
    cases hty : op.ty with
    | add =>
      by_cases hd : 255 ≤ op.data
      · simp only [if_pos hd]
        constructor
        · intro hc
          cases hc
        · intro hall
          have := hall op (by simp) (Or.inl hty)
          omega
      · simp only [if_neg hd, ih]
        constructor
        · intro hall op2 hop2 hty2
          rcases List.mem_cons.mp hop2 with rfl | hmem
          · omega
          · exact hall op2 hmem hty2
        · intro hall op2 hop2 hty2
          exact hall op2 (List.mem_cons_of_mem _ hop2) hty2
    | sub =>
      by_cases hd : 255 ≤ op.data
      · simp only [if_pos hd]
        constructor
        · intro hc
          cases hc
        · intro hall
          have := hall op (by simp) (Or.inr hty)
          omega
      · simp only [if_neg hd, ih]
        constructor
        · intro hall op2 hop2 hty2
          rcases List.mem_cons.mp hop2 with rfl | hmem
          · omega
          · exact hall op2 hmem hty2
        · intro hall op2 hop2 hty2
          exact hall op2 (List.mem_cons_of_mem _ hop2) hty2
    | shiftLeft =>
      simp only [ih]
      constructor
      · intro hall op2 hop2 hty2
        rcases List.mem_cons.mp hop2 with rfl | hmem
        · rcases hty2 with h2 | h2 <;> (rw [hty] at h2; cases h2)
        · exact hall op2 hmem hty2
      · intro hall op2 hop2 hty2
        exact hall op2 (List.mem_cons_of_mem _ hop2) hty2
    | shiftRight =>
      simp only [ih]
      constructor
      · intro hall op2 hop2 hty2
        rcases List.mem_cons.mp hop2 with rfl | hmem
        · rcases hty2 with h2 | h2 <;> (rw [hty] at h2; cases h2)
        · exact hall op2 hmem hty2
      · intro hall op2 hop2 hty2
        exact hall op2 (List.mem_cons_of_mem _ hop2) hty2
    | jmpZero =>
      simp only [ih]
      constructor
      · intro hall op2 hop2 hty2
        rcases List.mem_cons.mp hop2 with rfl | hmem
        · rcases hty2 with h2 | h2 <;> (rw [hty] at h2; cases h2)
        · exact hall op2 hmem hty2
      · intro hall op2 hop2 hty2
        exact hall op2 (List.mem_cons_of_mem _ hop2) hty2
    | jmpNotZero =>
      simp only [ih]
      constructor
      · intro hall op2 hop2 hty2
        rcases List.mem_cons.mp hop2 with rfl | hmem
        · rcases hty2 with h2 | h2 <;> (rw [hty] at h2; cases h2)
        · exact hall op2 hmem hty2
      · intro hall op2 hop2 hty2
        exact hall op2 (List.mem_cons_of_mem _ hop2) hty2
    | inputChar =>
      simp only [ih]
      constructor
      · intro hall op2 hop2 hty2
        rcases List.mem_cons.mp hop2 with rfl | hmem
        · rcases hty2 with h2 | h2 <;> (rw [hty] at h2; cases h2)
        · exact hall op2 hmem hty2
      · intro hall op2 hop2 hty2
        exact hall op2 (List.mem_cons_of_mem _ hop2) hty2
    | printChar =>
      simp only [ih]
      constructor
      · intro hall op2 hop2 hty2
        rcases List.mem_cons.mp hop2 with rfl | hmem
        · rcases hty2 with h2 | h2 <;> (rw [hty] at h2; cases h2)
        · exact hall op2 hmem hty2
      · intro hall op2 hop2 hty2
        exact hall op2 (List.mem_cons_of_mem _ hop2) hty2

theorem verify_program_error (p : Program) (e : VmError) :
    Vm.verify_program p = Except.error e →
      ∃ op ∈ p, (op.ty = OpCodeType.add ∨ op.ty = OpCodeType.sub) ∧
        255 ≤ op.data ∧ e = VmError.operandOutOfRange op.data := by
  induction p with
  | nil => intro hc; cases hc
  | cons op rest ih =>
    rw [Vm.verify_program]
    cases hty : op.ty with
    | add =>
      by_cases hd : 255 ≤ op.data
      · simp only [if_pos hd]
        intro he
        cases he
        exact ⟨op, by simp, Or.inl hty, hd, rfl⟩
      · simp only [if_neg hd]
        intro he
        obtain ⟨op2, hmem, h1, h2, h3⟩ := ih he
        exact ⟨op2, List.mem_cons_of_mem _ hmem, h1, h2, h3⟩
    | sub =>
      by_cases hd : 255 ≤ op.data
      · simp only [if_pos hd]
        intro he
        cases he
        exact ⟨op, by simp, Or.inr hty, hd, rfl⟩
      · simp only [if_neg hd]
        intro he
        obtain ⟨op2, hmem, h1, h2, h3⟩ := ih he
        exact ⟨op2, List.mem_cons_of_mem _ hmem, h1, h2, h3⟩
    | shiftLeft =>
      intro he
      obtain ⟨op2, hmem, h1, h2, h3⟩ := ih he
      exact ⟨op2, List.mem_cons_of_mem _ hmem, h1, h2, h3⟩
    | shiftRight =>
      intro he
      obtain ⟨op2, hmem, h1, h2, h3⟩ := ih he
      exact ⟨op2, List.mem_cons_of_mem _ hmem, h1, h2, h3⟩
    | jmpZero =>
      intro he
      obtain ⟨op2, hmem, h1, h2, h3⟩ := ih he
      exact ⟨op2, List.mem_cons_of_mem _ hmem, h1, h2, h3⟩
    | jmpNotZero =>
      intro he
      obtain ⟨op2, hmem, h1, h2, h3⟩ := ih he
      exact ⟨op2, List.mem_cons_of_mem _ hmem, h1, h2, h3⟩
    | inputChar =>
      intro he
      obtain ⟨op2, hmem, h1, h2, h3⟩ := ih he
      exact ⟨op2, List.mem_cons_of_mem _ hmem, h1, h2, h3⟩
    | printChar =>
      intro he
      obtain ⟨op2, hmem, h1, h2, h3⟩ := ih he
      exact ⟨op2, List.mem_cons_of_mem _ hmem, h1, h2, h3⟩

theorem opAt_append_lt (p q : Program) (i : Nat) (h : i < p.length) :
    opAt (p ++ q) i = opAt p i :=
  getAt_append_lt _ p q i h

theorem opAt_append_self (p : Program) (a : OpCode) :
    opAt (p ++ [a]) p.length = a :=
  getAt_append_self _ p a

theorem opAt_patch_self (p : Program) (i d : Nat) (h : i < p.length) :
    opAt (patchData p i d) i = ⟨(opAt p i).ty, d⟩ :=
  getAt_set_self _ p i _ h

theorem opAt_patch_ne (p : Program) (i j d : Nat) (h : j ≠ i) :
    opAt (patchData p i d) j = opAt p j :=
  getAt_set_ne _ p j i _ h

theorem patchData_length (p : Program) (i d : Nat) :
    (patchData p i d).length = p.length := by
  simp [patchData]

theorem closedAt_nil (i : Nat) : ClosedAt [] i := by
  simp [ClosedAt, stackIdxs]

theorem closedAt_cons_iff (e : TokenLoc × Nat) (stk : List (TokenLoc × Nat)) (i : Nat) :
    ClosedAt (e :: stk) i ↔ i ≠ e.2 ∧ ClosedAt stk i := by
  simp [ClosedAt, stackIdxs, not_or]

theorem parseGo_nil_nil (prog : Program) :
    Parser.parseGo [] [] prog = Except.ok prog := by
  rw [Parser.parseGo]

theorem parseGo_nil_cons (l : TokenLoc) (i : Nat) (stk2 : List (TokenLoc × Nat)) (prog : Program) :
    Parser.parseGo [] ((l, i) :: stk2) prog =
      Except.error (ParseError.unclosedLBracket l (stk2.length + 1)) := by
  rw [Parser.parseGo]

theorem parseGo_lbracket_eq (loc : TokenLoc) (rest : TokenList)
    (stk : List (TokenLoc × Nat)) (prog : Program) :
    Parser.parseGo ((Token.lbracket, loc) :: rest) stk prog =
      Parser.parseGo rest ((loc, prog.length) :: stk)
        (prog ++ [⟨OpCodeType.jmpZero, usizeMax⟩]) := by
  rw [Parser.parseGo]

theorem parseGo_rbracket_nil_eq (loc : TokenLoc) (rest : TokenList) (prog : Program) :
    Parser.parseGo ((Token.rbracket, loc) :: rest) [] prog =
      Except.error (ParseError.unexpectedRBracket loc) := by
  rw [Parser.parseGo]

theorem parseGo_rbracket_cons_eq (loc l : TokenLoc) (rest : TokenList) (lidx : Nat)
    (stk2 : List (TokenLoc × Nat)) (prog : Program) :
    Parser.parseGo ((Token.rbracket, loc) :: rest) ((l, lidx) :: stk2) prog =
      Parser.parseGo rest stk2
        (patchData prog lidx prog.length ++ [⟨OpCodeType.jmpNotZero, lidx⟩]) := by
  rw [Parser.parseGo]

theorem parseGo_groupable_eq (tok : Token) (loc : TokenLoc) (rest : TokenList)
    (stk : List (TokenLoc × Nat)) (prog : Program)
    (h1 : tok ≠ Token.lbracket) (h2 : tok ≠ Token.rbracket) :
    Parser.parseGo ((tok, loc) :: rest) stk prog =
      Parser.parseGo (Parser.count_current_token tok rest).2 stk
        (prog ++ [OpCode.from_token tok (Parser.count_current_token tok rest).1]) := by
  cases tok with
  | lbracket => exact absurd rfl h1
  | rbracket => exact absurd rfl h2
  | plus =>
    rw [Parser.parseGo]
    all_goals simp
  | minus =>
    rw [Parser.parseGo]
    all_goals simp
  | less =>
    rw [Parser.parseGo]
    all_goals simp
  | greater =>
    rw [Parser.parseGo]
    all_goals simp
  | comma =>
    rw [Parser.parseGo]
    all_goals simp
  | dot =>
    rw [Parser.parseGo]
    all_goals simp

theorem cct_len_le (t : Token) (rest : TokenList) :
    (Parser.count_current_token t rest).2.length ≤ rest.length := by
  simp only [Parser.count_current_token]
  split
  · exact countRun_len_le t rest
  · exact Nat.le_refl _

theorem inv_push (stk : List (TokenLoc × Nat)) (p : Program) (loc : TokenLoc)
    (h : ParserInv stk p) :
    ParserInv ((loc, p.length) :: stk) (p ++ [⟨OpCodeType.jmpZero, usizeMax⟩]) := by
  obtain ⟨⟨hmem, hpw⟩, hpair⟩ := h
  have hAtNew : opAt (p ++ [⟨OpCodeType.jmpZero, usizeMax⟩]) p.length =
      ⟨OpCodeType.jmpZero, usizeMax⟩ := opAt_append_self p _
  have hAtOld : ∀ i, i < p.length →
      opAt (p ++ [⟨OpCodeType.jmpZero, usizeMax⟩]) i = opAt p i :=
    fun i hi => opAt_append_lt p _ i hi
  refine ⟨⟨?_, ?_⟩, ?_⟩
  · intro e he
    rcases List.mem_cons.mp he with rfl | he2
    · exact ⟨by simp, by rw [hAtNew]⟩
    · obtain ⟨h1, h2⟩ := hmem e he2
      refine ⟨by simp; omega, ?_⟩
      rw [hAtOld e.2 h1]
      exact h2
  · exact List.Pairwise.cons (fun b hb => (hmem b hb).1) hpw
  · intro i hi
    have hi2 : i < p.length + 1 := by simpa using hi
    by_cases hie : i = p.length
    · subst hie
      constructor
      · intro hty
        rw [hAtNew] at hty
        simp at hty
      · intro _ hcl
        exfalso
        apply hcl
        simp [stackIdxs]
    · have hilt : i < p.length := by omega
      have hrw := hAtOld i hilt
      constructor
      · intro hty
        rw [hrw] at hty
        obtain ⟨hd1, hd2, hd3, hd4⟩ := (hpair i hilt).1 hty
        rw [hrw]
        refine ⟨hd1, ?_, ?_, ?_⟩
        · rw [hAtOld _ (by omega)]
          exact hd2
        · rw [hAtOld _ (by omega)]
          exact hd3
        · rw [closedAt_cons_iff]
          refine ⟨?_, hd4⟩
          show (opAt p i).data ≠ p.length
          omega
      · intro hty hcl
        rw [hrw] at hty
        rw [closedAt_cons_iff] at hcl
        obtain ⟨hj1, hj2, hj3, hj4⟩ := (hpair i hilt).2 hty hcl.2
        rw [hrw]
        refine ⟨hj1, by simp; omega, ?_, ?_⟩
        · rw [hAtOld _ hj2]
          exact hj3
        · rw [hAtOld _ hj2]
          exact hj4

theorem inv_emit (stk : List (TokenLoc × Nat)) (p : Program) (op : OpCode)
    (h1 : op.ty ≠ OpCodeType.jmpZero) (h2 : op.ty ≠ OpCodeType.jmpNotZero)
    (h : ParserInv stk p) : ParserInv stk (p ++ [op]) := by
  obtain ⟨⟨hmem, hpw⟩, hpair⟩ := h
  have hAtNew : opAt (p ++ [op]) p.length = op := opAt_append_self p op
  have hAtOld : ∀ i, i < p.length → opAt (p ++ [op]) i = opAt p i :=
    fun i hi => opAt_append_lt p _ i hi
  refine ⟨⟨?_, hpw⟩, ?_⟩
  · intro e he
    obtain ⟨h1e, h2e⟩ := hmem e he
    refine ⟨by simp; omega, ?_⟩
    rw [hAtOld e.2 h1e]
    exact h2e
  · intro i hi
    have hi2 : i < p.length + 1 := by simpa using hi
    by_cases hie : i = p.length
    · subst hie
      constructor
      · intro hty
        rw [hAtNew] at hty
        exact absurd hty h2
      · intro hty _
        rw [hAtNew] at hty
        exact absurd hty h1
    · have hilt : i < p.length := by omega
      have hrw := hAtOld i hilt
      constructor
      · intro hty
        rw [hrw] at hty
        obtain ⟨hd1, hd2, hd3, hd4⟩ := (hpair i hilt).1 hty
        rw [hrw]
        refine ⟨hd1, ?_, ?_, hd4⟩
        · rw [hAtOld _ (by omega)]
          exact hd2
        · rw [hAtOld _ (by omega)]
          exact hd3
      · intro hty hcl
        rw [hrw] at hty
        obtain ⟨hj1, hj2, hj3, hj4⟩ := (hpair i hilt).2 hty hcl
        rw [hrw]
        refine ⟨hj1, by simp; omega, ?_, ?_⟩
        · rw [hAtOld _ hj2]
          exact hj3
        · rw [hAtOld _ hj2]
          exact hj4

theorem inv_pop (stk : List (TokenLoc × Nat)) (p : Program) (loc : TokenLoc) (lidx : Nat)
    (h : ParserInv ((loc, lidx) :: stk) p) :
    ParserInv stk (patchData p lidx p.length ++ [⟨OpCodeType.jmpNotZero, lidx⟩]) := by
  obtain ⟨⟨hmem, hpw⟩, hpair⟩ := h
  have hhead := hmem (loc, lidx) (List.mem_cons_self _ _)
  have hlidx : lidx < p.length := hhead.1
  have htyl : (opAt p lidx).ty = OpCodeType.jmpZero := hhead.2
  have hlt : ∀ e ∈ stk, e.2 < lidx := by
    have hp := List.pairwise_cons.mp hpw
    exact fun e he => hp.1 e he
  have hplen : (patchData p lidx p.length).length = p.length := patchData_length p lidx p.length
  have hAtL : opAt (patchData p lidx p.length ++ [⟨OpCodeType.jmpNotZero, lidx⟩]) lidx =
      ⟨OpCodeType.jmpZero, p.length⟩ := by
    rw [opAt_append_lt _ _ lidx (by rw [hplen]; exact hlidx)]
    rw [opAt_patch_self p lidx p.length hlidx, htyl]
  have hAtN : opAt (patchData p lidx p.length ++ [⟨OpCodeType.jmpNotZero, lidx⟩]) p.length =
      ⟨OpCodeType.jmpNotZero, lidx⟩ := by
    have h0 := opAt_append_self (patchData p lidx p.length) ⟨OpCodeType.jmpNotZero, lidx⟩
    rw [hplen] at h0
    exact h0
  have hAtLty : (opAt (patchData p lidx p.length ++ [⟨OpCodeType.jmpNotZero, lidx⟩]) lidx).ty =
      OpCodeType.jmpZero := by rw [hAtL]
  have hAtLdata :
      (opAt (patchData p lidx p.length ++ [⟨OpCodeType.jmpNotZero, lidx⟩]) lidx).data =
      p.length := by rw [hAtL]
  have hAtNty :
      (opAt (patchData p lidx p.length ++ [⟨OpCodeType.jmpNotZero, lidx⟩]) p.length).ty =
      OpCodeType.jmpNotZero := by rw [hAtN]
  have hAtNdata :
      (opAt (patchData p lidx p.length ++ [⟨OpCodeType.jmpNotZero, lidx⟩]) p.length).data =
      lidx := by rw [hAtN]
  have hAtO : ∀ i, i < p.length → i ≠ lidx →
      opAt (patchData p lidx p.length ++ [⟨OpCodeType.jmpNotZero, lidx⟩]) i = opAt p i := by
    intro i hi hne
    rw [opAt_append_lt _ _ i (by rw [hplen]; exact hi)]
    exact opAt_patch_ne p lidx i p.length hne
  have hlen2 : (patchData p lidx p.length ++ [(⟨OpCodeType.jmpNotZero, lidx⟩ : OpCode)]).length =
      p.length + 1 := by
    simp [hplen]
  have hclL : ClosedAt stk lidx := by
    intro hmem2
    obtain ⟨e, he, heq⟩ := List.mem_map.mp hmem2
    have := hlt e he
    omega
  refine ⟨⟨?_, ?_⟩, ?_⟩
  · intro e he
    obtain ⟨h1e, h2e⟩ := hmem e (List.mem_cons_of_mem _ he)
    have hne : e.2 ≠ lidx := Nat.ne_of_lt (hlt e he)
    refine ⟨by rw [hlen2]; omega, ?_⟩
    rw [hAtO e.2 h1e hne]
    exact h2e
  · exact (List.pairwise_cons.mp hpw).2
  · intro i hi
    rw [hlen2] at hi
    by_cases hin : i = p.length
    · subst hin
      constructor
      · intro _
        rw [hAtNdata]
        refine ⟨hlidx, ?_, ?_, hclL⟩
        · rw [hAtLty]
        · rw [hAtLdata]
      · intro hty
        rw [hAtNty] at hty
        simp at hty
    · have hilt : i < p.length := by omega
      by_cases hil : i = lidx
      · subst hil
        constructor
        · intro hty
          rw [hAtLty] at hty
          simp at hty
        · intro _ _
          rw [hAtLdata]
          refine ⟨hlidx, ?_, ?_, ?_⟩
          · rw [hlen2]
            omega
          · rw [hAtNty]
          · rw [hAtNdata]
      · have hrw := hAtO i hilt hil
        constructor
        · intro hty
          rw [hrw] at hty
          obtain ⟨hd1, hd2, hd3, hd4⟩ := (hpair i hilt).1 hty
          have hdcl := (closedAt_cons_iff _ _ _).mp hd4
          have hdne : (opAt p i).data ≠ lidx := hdcl.1
          rw [hrw]
          refine ⟨hd1, ?_, ?_, hdcl.2⟩
          · rw [hAtO _ (by omega) hdne]
            exact hd2
          · rw [hAtO _ (by omega) hdne]
            exact hd3
        · intro hty hcl
          rw [hrw] at hty
          have hcl2 : ClosedAt ((loc, lidx) :: stk) i :=
            (closedAt_cons_iff _ _ _).mpr ⟨hil, hcl⟩
          obtain ⟨hj1, hj2, hj3, hj4⟩ := (hpair i hilt).2 hty hcl2
          have hjne : (opAt p i).data ≠ lidx := by
            intro hceq
            have h5 : (opAt p lidx).ty = OpCodeType.jmpNotZero := by
              rw [← hceq]
              exact hj3
            rw [htyl] at h5
            simp at h5
          rw [hrw]
          refine ⟨hj1, by rw [hlen2]; omega, ?_, ?_⟩
          · rw [hAtO _ hj2 hjne]
            exact hj3
          · rw [hAtO _ hj2 hjne]
            exact hj4

theorem jumpsMatched_of_inv (p : Program) (h : ParserInv [] p) : JumpsMatched p := by
  obtain ⟨_, hpair⟩ := h
  intro i hi
  have hp := hpair i hi
  refine ⟨?_, ?_⟩
  · intro hty
    exact hp.2 hty (closedAt_nil _)
  · intro hty
    obtain ⟨h1, h2, h3, _⟩ := hp.1 hty
    exact ⟨h1, h2, h3⟩

theorem parseGo_ok_matched (N : Nat) : ∀ (ts : TokenList), ts.length ≤ N →
    ∀ (stk : List (TokenLoc × Nat)) (p q : Program),
      ParserInv stk p → Parser.parseGo ts stk p = Except.ok q → JumpsMatched q := by
  induction N with
  | zero =>
    intro ts hlen stk p q hinv hok
    have hts : ts = [] := List.eq_nil_of_length_eq_zero (Nat.le_zero.mp hlen)
    subst hts
    cases stk with
    | nil =>
      rw [parseGo_nil_nil] at hok
      cases hok
      exact jumpsMatched_of_inv p hinv
    | cons e stk2 =>
      obtain ⟨l, i⟩ := e
      rw [parseGo_nil_cons] at hok
      cases hok
  | succ N2 ih =>
    intro ts hlen stk p q hinv hok
    cases ts with
    | nil =>
      cases stk with
      | nil =>
        rw [parseGo_nil_nil] at hok
        cases hok
        exact jumpsMatched_of_inv p hinv
      | cons e stk2 =>
        obtain ⟨l, i⟩ := e
        rw [parseGo_nil_cons] at hok
        cases hok
    | cons td rest =>
      obtain ⟨tok, loc⟩ := td
      have hrlen : rest.length ≤ N2 := by
        simp only [List.length_cons] at hlen
        omega
      cases tok with
      | lbracket =>
        rw [parseGo_lbracket_eq] at hok
        exact ih rest hrlen _ _ q (inv_push stk p loc hinv) hok
      | rbracket =>
        cases stk with
        | nil =>
          rw [parseGo_rbracket_nil_eq] at hok
          cases hok
        | cons e stk2 =>
          obtain ⟨l, lidx⟩ := e
          rw [parseGo_rbracket_cons_eq] at hok
          exact ih rest hrlen _ _ q (inv_pop stk2 p l lidx hinv) hok
      | plus =>
        rw [parseGo_groupable_eq _ _ _ _ _ (by simp) (by simp)] at hok
        exact ih _ (Nat.le_trans (cct_len_le _ _) hrlen) stk _ q
          (inv_emit stk p _ (by simp [OpCode.from_token]) (by simp [OpCode.from_token]) hinv) hok
      | minus =>
        rw [parseGo_groupable_eq _ _ _ _ _ (by simp) (by simp)] at hok
        exact ih _ (Nat.le_trans (cct_len_le _ _) hrlen) stk _ q
          (inv_emit stk p _ (by simp [OpCode.from_token]) (by simp [OpCode.from_token]) hinv) hok
      | less =>
        rw [parseGo_groupable_eq _ _ _ _ _ (by simp) (by simp)] at hok
        exact ih _ (Nat.le_trans (cct_len_le _ _) hrlen) stk _ q
          (inv_emit stk p _ (by simp [OpCode.from_token]) (by simp [OpCode.from_token]) hinv) hok
      | greater =>
        rw [parseGo_groupable_eq _ _ _ _ _ (by simp) (by simp)] at hok
        exact ih _ (Nat.le_trans (cct_len_le _ _) hrlen) stk _ q
          (inv_emit stk p _ (by simp [OpCode.from_token]) (by simp [OpCode.from_token]) hinv) hok
      | comma =>
        rw [parseGo_groupable_eq _ _ _ _ _ (by simp) (by simp)] at hok
        exact ih _ (Nat.le_trans (cct_len_le _ _) hrlen) stk _ q
          (inv_emit stk p _ (by simp [OpCode.from_token]) (by simp [OpCode.from_token]) hinv) hok
      | dot =>
        rw [parseGo_groupable_eq _ _ _ _ _ (by simp) (by simp)] at hok
        exact ih _ (Nat.le_trans (cct_len_le _ _) hrlen) stk _ q
          (inv_emit stk p _ (by simp [OpCode.from_token]) (by simp [OpCode.from_token]) hinv) hok

theorem bracketScan_groupable_cons (tok : Token) (loc : TokenLoc) (rest : TokenList)
    (stk : List TokenLoc) (h1 : tok ≠ Token.lbracket) (h2 : tok ≠ Token.rbracket) :
    bracketScan ((tok, loc) :: rest) stk = bracketScan rest stk := by
  cases tok with
  | lbracket => exact absurd rfl h1
  | rbracket => exact absurd rfl h2
  | plus =>
    rw [bracketScan]
    all_goals simp
  | minus =>
    rw [bracketScan]
    all_goals simp
  | less =>
    rw [bracketScan]
    all_goals simp
  | greater =>
    rw [bracketScan]
    all_goals simp
  | comma =>
    rw [bracketScan]
    all_goals simp
  | dot =>
    rw [bracketScan]
    all_goals simp

theorem bracketScan_skip_run (tok : Token) (h1 : tok ≠ Token.lbracket)
    (h2 : tok ≠ Token.rbracket) :
    ∀ (rest : TokenList) (stk : List TokenLoc),
      bracketScan (countRun tok rest).2 stk = bracketScan rest stk := by
  intro rest
  induction rest with
  | nil =>
    intro stk
    rw [countRun]
  | cons td r ih =>
    intro stk
    by_cases hh : td.1 = tok
    · rw [countRun, if_pos hh]
      obtain ⟨t2, l2⟩ := td
      have hh2 : t2 = tok := hh
      subst hh2
      rw [ih, bracketScan_groupable_cons t2 l2 r stk h1 h2]
    · rw [countRun, if_neg hh]

theorem tok_groupable_of_ne (tok : Token) (h1 : tok ≠ Token.lbracket)
    (h2 : tok ≠ Token.rbracket) : tok.is_groupable = true := by
  cases tok with
  | lbracket => exact absurd rfl h1
  | rbracket => exact absurd rfl h2
  | plus => rfl
  | minus => rfl
  | less => rfl
  | greater => rfl
  | comma => rfl
  | dot => rfl

theorem scan_transport (tok : Token) (loc : TokenLoc) (rest : TokenList)
    (stk : List TokenLoc) (h1 : tok ≠ Token.lbracket) (h2 : tok ≠ Token.rbracket)
    (x : Except TokenLoc (List TokenLoc))
    (h : bracketScan (Parser.count_current_token tok rest).2 stk = x) :
    bracketScan ((tok, loc) :: rest) stk = x := by
  rw [bracketScan_groupable_cons tok loc rest stk h1 h2]
  rw [← bracketScan_skip_run tok h1 h2 rest stk]
  rw [← h]
  congr 1
  simp [Parser.count_current_token, tok_groupable_of_ne tok h1 h2]

theorem parseGo_scan_nil (stk : List (TokenLoc × Nat)) (p : Program) :
    (∀ q, Parser.parseGo [] stk p = Except.ok q →
      bracketScan [] (stk.map Prod.fst) = Except.ok [])
    ∧ (∀ loc, Parser.parseGo [] stk p = Except.error (ParseError.unexpectedRBracket loc) →
      bracketScan [] (stk.map Prod.fst) = Except.error loc)
    ∧ (∀ loc n, Parser.parseGo [] stk p = Except.error (ParseError.unclosedLBracket loc n) →
      ∃ r, bracketScan [] (stk.map Prod.fst) = Except.ok (loc :: r) ∧ n = r.length + 1) := by
  cases stk with
  | nil =>
    refine ⟨?_, ?_, ?_⟩
    · intro q _
      rw [bracketScan]
      simp
    · intro loc he
      rw [parseGo_nil_nil] at he
      cases he
    · intro loc n he
      rw [parseGo_nil_nil] at he
      cases he
  | cons e stk2 =>
    obtain ⟨l, i⟩ := e
    refine ⟨?_, ?_, ?_⟩
    · intro q hok
      rw [parseGo_nil_cons] at hok
      cases hok
    · intro loc he
      rw [parseGo_nil_cons] at he
      simp at he
    · intro loc n he
      rw [parseGo_nil_cons] at he
      simp only [Except.error.injEq, ParseError.unclosedLBracket.injEq] at he
      obtain ⟨rfl, rfl⟩ := he
      refine ⟨stk2.map Prod.fst, ?_, ?_⟩
      · rw [bracketScan]
        simp
      · simp

theorem parseGo_scan (N : Nat) : ∀ (ts : TokenList), ts.length ≤ N →
    ∀ (stk : List (TokenLoc × Nat)) (p : Program),
      (∀ q, Parser.parseGo ts stk p = Except.ok q →
        bracketScan ts (stk.map Prod.fst) = Except.ok [])
      ∧ (∀ loc, Parser.parseGo ts stk p = Except.error (ParseError.unexpectedRBracket loc) →
        bracketScan ts (stk.map Prod.fst) = Except.error loc)
      ∧ (∀ loc n, Parser.parseGo ts stk p = Except.error (ParseError.unclosedLBracket loc n) →
        ∃ r, bracketScan ts (stk.map Prod.fst) = Except.ok (loc :: r) ∧ n = r.length + 1) := by
  induction N with
  | zero =>
    intro ts hlen stk p
    have hts : ts = [] := List.eq_nil_of_length_eq_zero (Nat.le_zero.mp hlen)
    subst hts
    exact parseGo_scan_nil stk p
  | succ N2 ih =>
    intro ts hlen stk p
    cases ts with
    | nil => exact parseGo_scan_nil stk p
    | cons td rest =>
      obtain ⟨tok, loc⟩ := td
      have hrlen : rest.length ≤ N2 := by
        simp only [List.length_cons] at hlen
        omega
      cases tok with
      | lbracket =>
        have hscan : ∀ s, bracketScan ((Token.lbracket, loc) :: rest) s =
            bracketScan rest (loc :: s) := by
          intro s
          rw [bracketScan]
        refine ⟨?_, ?_, ?_⟩
        · intro q hok
          rw [parseGo_lbracket_eq] at hok
          have hih := (ih rest hrlen ((loc, p.length) :: stk) _).1 q hok
          rw [hscan]
          exact hih
        · intro loc2 he
          rw [parseGo_lbracket_eq] at he
          have hih := (ih rest hrlen ((loc, p.length) :: stk) _).2.1 loc2 he
          rw [hscan]
          exact hih
        · intro loc2 n he
          rw [parseGo_lbracket_eq] at he
          have hih := (ih rest hrlen ((loc, p.length) :: stk) _).2.2 loc2 n he
          rw [hscan]
          exact hih
      | rbracket =>
        cases stk with
        | nil =>
          have hscan : bracketScan ((Token.rbracket, loc) :: rest) [] = Except.error loc := by
            rw [bracketScan]
          refine ⟨?_, ?_, ?_⟩
          · intro q hok
            rw [parseGo_rbracket_nil_eq] at hok
            cases hok
          · intro loc2 he
            rw [parseGo_rbracket_nil_eq] at he
            simp only [Except.error.injEq, ParseError.unexpectedRBracket.injEq] at he
            subst he
            simpa using hscan
          · intro loc2 n he
            rw [parseGo_rbracket_nil_eq] at he
            simp at he
        | cons e stk2 =>
          obtain ⟨l, lidx⟩ := e
          have hscan : ∀ s2, bracketScan ((Token.rbracket, loc) :: rest) (l :: s2) =
              bracketScan rest s2 := by
            intro s2
            rw [bracketScan]
          refine ⟨?_, ?_, ?_⟩
          · intro q hok
            rw [parseGo_rbracket_cons_eq] at hok
            have hih := (ih rest hrlen stk2 _).1 q hok
            simpa [hscan] using hih
          · intro loc2 he
            rw [parseGo_rbracket_cons_eq] at he
            have hih := (ih rest hrlen stk2 _).2.1 loc2 he
            simpa [hscan] using hih
          · intro loc2 n he
            rw [parseGo_rbracket_cons_eq] at he
            obtain ⟨r, hr1, hr2⟩ := (ih rest hrlen stk2 _).2.2 loc2 n he
            exact ⟨r, by simpa [hscan] using hr1, hr2⟩
      | plus =>
        refine ⟨?_, ?_, ?_⟩
        · intro q hok
          rw [parseGo_groupable_eq _ _ _ _ _ (by simp) (by simp)] at hok
          exact scan_transport _ _ _ _ (by simp) (by simp) _
            ((ih _ (Nat.le_trans (cct_len_le _ _) hrlen) stk _).1 q hok)
        · intro loc2 he
          rw [parseGo_groupable_eq _ _ _ _ _ (by simp) (by simp)] at he
          exact scan_transport _ _ _ _ (by simp) (by simp) _
            ((ih _ (Nat.le_trans (cct_len_le _ _) hrlen) stk _).2.1 loc2 he)
        · intro loc2 n he
          rw [parseGo_groupable_eq _ _ _ _ _ (by simp) (by simp)] at he
          obtain ⟨r, hr1, hr2⟩ :=
            (ih _ (Nat.le_trans (cct_len_le _ _) hrlen) stk _).2.2 loc2 n he
          exact ⟨r, scan_transport _ _ _ _ (by simp) (by simp) _ hr1, hr2⟩
      | minus =>
        refine ⟨?_, ?_, ?_⟩
        · intro q hok
          rw [parseGo_groupable_eq _ _ _ _ _ (by simp) (by simp)] at hok
          exact scan_transport _ _ _ _ (by simp) (by simp) _
            ((ih _ (Nat.le_trans (cct_len_le _ _) hrlen) stk _).1 q hok)
        · intro loc2 he
          rw [parseGo_groupable_eq _ _ _ _ _ (by simp) (by simp)] at he
          exact scan_transport _ _ _ _ (by simp) (by simp) _
            ((ih _ (Nat.le_trans (cct_len_le _ _) hrlen) stk _).2.1 loc2 he)
        · intro loc2 n he
          rw [parseGo_groupable_eq _ _ _ _ _ (by simp) (by simp)] at he
          obtain ⟨r, hr1, hr2⟩ :=
            (ih _ (Nat.le_trans (cct_len_le _ _) hrlen) stk _).2.2 loc2 n he
          exact ⟨r, scan_transport _ _ _ _ (by simp) (by simp) _ hr1, hr2⟩
      | less =>
        refine ⟨?_, ?_, ?_⟩
        · intro q hok
          rw [parseGo_groupable_eq _ _ _ _ _ (by simp) (by simp)] at hok
          exact scan_transport _ _ _ _ (by simp) (by simp) _
            ((ih _ (Nat.le_trans (cct_len_le _ _) hrlen) stk _).1 q hok)
        · intro loc2 he
          rw [parseGo_groupable_eq _ _ _ _ _ (by simp) (by simp)] at he
          exact scan_transport _ _ _ _ (by simp) (by simp) _
            ((ih _ (Nat.le_trans (cct_len_le _ _) hrlen) stk _).2.1 loc2 he)
        · intro loc2 n he
          rw [parseGo_groupable_eq _ _ _ _ _ (by simp) (by simp)] at he
          obtain ⟨r, hr1, hr2⟩ :=
            (ih _ (Nat.le_trans (cct_len_le _ _) hrlen) stk _).2.2 loc2 n he
          exact ⟨r, scan_transport _ _ _ _ (by simp) (by simp) _ hr1, hr2⟩
      | greater =>
        refine ⟨?_, ?_, ?_⟩
        · intro q hok
          rw [parseGo_groupable_eq _ _ _ _ _ (by simp) (by simp)] at hok
          exact scan_transport _ _ _ _ (by simp) (by simp) _
            ((ih _ (Nat.le_trans (cct_len_le _ _) hrlen) stk _).1 q hok)
        · intro loc2 he
          rw [parseGo_groupable_eq _ _ _ _ _ (by simp) (by simp)] at he
          exact scan_transport _ _ _ _ (by simp) (by simp) _
            ((ih _ (Nat.le_trans (cct_len_le _ _) hrlen) stk _).2.1 loc2 he)
        · intro loc2 n he
          rw [parseGo_groupable_eq _ _ _ _ _ (by simp) (by simp)] at he
          obtain ⟨r, hr1, hr2⟩ :=
            (ih _ (Nat.le_trans (cct_len_le _ _) hrlen) stk _).2.2 loc2 n he
          exact ⟨r, scan_transport _ _ _ _ (by simp) (by simp) _ hr1, hr2⟩
      | comma =>
        refine ⟨?_, ?_, ?_⟩
        · intro q hok
          rw [parseGo_groupable_eq _ _ _ _ _ (by simp) (by simp)] at hok
          exact scan_transport _ _ _ _ (by simp) (by simp) _
            ((ih _ (Nat.le_trans (cct_len_le _ _) hrlen) stk _).1 q hok)
        · intro loc2 he
          rw [parseGo_groupable_eq _ _ _ _ _ (by simp) (by simp)] at he
          exact scan_transport _ _ _ _ (by simp) (by simp) _
            ((ih _ (Nat.le_trans (cct_len_le _ _) hrlen) stk _).2.1 loc2 he)
        · intro loc2 n he
          rw [parseGo_groupable_eq _ _ _ _ _ (by simp) (by simp)] at he
          obtain ⟨r, hr1, hr2⟩ :=
            (ih _ (Nat.le_trans (cct_len_le _ _) hrlen) stk _).2.2 loc2 n he
          exact ⟨r, scan_transport _ _ _ _ (by simp) (by simp) _ hr1, hr2⟩
      | dot =>
        refine ⟨?_, ?_, ?_⟩
        · intro q hok
          rw [parseGo_groupable_eq _ _ _ _ _ (by simp) (by simp)] at hok
          exact scan_transport _ _ _ _ (by simp) (by simp) _
            ((ih _ (Nat.le_trans (cct_len_le _ _) hrlen) stk _).1 q hok)
        · intro loc2 he
          rw [parseGo_groupable_eq _ _ _ _ _ (by simp) (by simp)] at he
          exact scan_transport _ _ _ _ (by simp) (by simp) _
            ((ih _ (Nat.le_trans (cct_len_le _ _) hrlen) stk _).2.1 loc2 he)
        · intro loc2 n he
          rw [parseGo_groupable_eq _ _ _ _ _ (by simp) (by simp)] at he
          obtain ⟨r, hr1, hr2⟩ :=
            (ih _ (Nat.le_trans (cct_len_le _ _) hrlen) stk _).2.2 loc2 n he
          exact ⟨r, scan_transport _ _ _ _ (by simp) (by simp) _ hr1, hr2⟩

theorem step_ok_preserves_bounds (vm vm2 : Vm) (hb : vm.mem_ptr < vm.mem.length)
    (h : vm.step = Except.ok vm2) : vm2.mem_ptr < vm2.mem.length := by
  cases hty : (opAt vm.program vm.pc).ty with
  | add =>
    rw [Vm.step_add vm hty] at h
    cases h
    simpa [Vm.add_to_cell, Vm.set_cell, Vm.inc_pc] using hb
  | sub =>
    rw [Vm.step_sub vm hty] at h
    cases h
    simpa [Vm.sub_to_cell, Vm.set_cell, Vm.inc_pc] using hb
  | shiftLeft =>
    rw [Vm.step_shift_left vm hty] at h
    cases h
    simp only [Vm.shift_left, Vm.inc_pc]
    omega
  | shiftRight =>
    rw [Vm.step_shift_right vm hty] at h
    rw [except_map_ok] at h
    obtain ⟨a, ha, rfl⟩ := h
    rw [Vm.shift_right] at ha
    by_cases hc : vm.mem.length ≤ vm.mem_ptr + (opAt vm.program vm.pc).data
    · rw [if_pos hc] at ha
      cases ha
    · rw [if_neg hc] at ha
      cases ha
      simp only [Vm.inc_pc]
      omega
  | jmpZero =>
    rw [Vm.step_jump_zero vm hty] at h
    cases h
    by_cases hc : vm.get_cell = 0
    · simpa [Vm.jump_zero, Vm.inc_pc, hc] using hb
    · simpa [Vm.jump_zero, Vm.inc_pc, hc] using hb
  | jmpNotZero =>
    rw [Vm.step_jump_not_zero vm hty] at h
    cases h
    by_cases hc : vm.get_cell = 0
    · simpa [Vm.jump_not_zero, Vm.inc_pc, hc] using hb
    · simpa [Vm.jump_not_zero, Vm.inc_pc, hc] using hb
  | inputChar =>
    rw [Vm.step_input vm hty] at h
    rw [except_map_ok] at h
    obtain ⟨a, ha, rfl⟩ := h
    rw [Vm.input_char] at ha
    cases hst : vm.stdin with
    | nil =>
      rw [hst] at ha
      cases ha
    | cons c r =>
      rw [hst] at ha
      cases ha
      simpa [Vm.set_cell, Vm.inc_pc] using hb
  | printChar =>
    rw [Vm.step_print vm hty] at h
    cases h
    simpa [Vm.print_chars, Vm.inc_pc] using hb

theorem run_overflow (fuel : Nat) : ∀ (vm vm2 : Vm) (m k : Nat),
    Vm.run fuel vm = RunResult.fail (VmError.memOverflow m k) vm2 →
    vm2.mem.length ≤ vm2.mem_ptr ∧
    (opAt vm2.program vm2.pc).ty = OpCodeType.shiftRight ∧
    vm2.pc < vm2.program.length ∧
    m = vm2.mem.length ∧ vm2.mem_ptr = m + k := by
  induction fuel with
  | zero =>
    intro vm vm2 m k h
    rw [Vm.run] at h
    cases h
  | succ fuel2 ih =>
    intro vm vm2 m k h
    rw [Vm.run] at h
    by_cases hpc : vm.pc < vm.program.length
    · rw [if_pos hpc] at h
      cases hs : vm.step with
      | ok v2 =>
        rw [hs] at h
        exact ih v2 vm2 m k h
      | error pair =>
        obtain ⟨e, v3⟩ := pair
        rw [hs] at h
        have h2 : RunResult.fail e v3 = RunResult.fail (VmError.memOverflow m k) vm2 := h
        simp only [RunResult.fail.injEq] at h2
        obtain ⟨he, hv⟩ := h2
        subst hv
        subst he
        cases hty : (opAt vm.program vm.pc).ty with
        | add =>
          rw [Vm.step_add vm hty] at hs
          cases hs
        | sub =>
          rw [Vm.step_sub vm hty] at hs
          cases hs
        | shiftLeft =>
          rw [Vm.step_shift_left vm hty] at hs
          cases hs
        | jmpZero =>
          rw [Vm.step_jump_zero vm hty] at hs
          cases hs
        | jmpNotZero =>
          rw [Vm.step_jump_not_zero vm hty] at hs
          cases hs
        | printChar =>
          rw [Vm.step_print vm hty] at hs
          cases hs
        | inputChar =>
          rw [Vm.step_input vm hty, except_map_error, Vm.input_char] at hs
          cases hst : vm.stdin with
          | nil =>
            rw [hst] at hs
            have hs2 : (Except.error (VmError.inputEof, vm) : Except (VmError × Vm) Vm) =
                Except.error (VmError.memOverflow m k, v3) := hs
            simp at hs2
          | cons c r =>
            rw [hst] at hs
            cases hs
        | shiftRight =>
          rw [Vm.step_shift_right vm hty, except_map_error, Vm.shift_right] at hs
          by_cases hc : vm.mem.length ≤ vm.mem_ptr + (opAt vm.program vm.pc).data
          · rw [if_pos hc] at hs
            simp only [Except.error.injEq, Prod.mk.injEq, VmError.memOverflow.injEq] at hs
            obtain ⟨⟨hm, hk⟩, hvm⟩ := hs
            subst hm
            subst hk
            subst hvm
            refine ⟨hc, hty, hpc, rfl, ?_⟩
            simp
            omega
          · rw [if_neg hc] at hs
            cases hs
    · rw [if_neg hpc] at h
      cases h

/-- C1: for every source whose compilation succeeds, each JumpIfZero
instruction's operand is the index of its uniquely matching JumpIfNonZero
(a later instruction whose operand points back at it), and each
JumpIfNonZero's operand is the index of its earlier JumpIfZero partner,
which points forward at it — established by the push-at-LoopStart,
patch-in-place-at-LoopEnd discipline of the compiler. -/
theorem parse_ok_jumps_matched (ts : TokenList) (q : Program)
    (h : Parser.parse ts = Except.ok q) : JumpsMatched q := by
  have hinv : ParserInv [] [] := by
    refine ⟨⟨?_, List.Pairwise.nil⟩, ?_⟩
    · intro e he
      simp at he
    · intro i hi
      simp at hi
  exact parseGo_ok_matched ts.length ts (Nat.le_refl _) [] [] q hinv h

/-- Witness for C1 at the program compiled from the source with one loop. -/
theorem parse_ok_jumps_matched_w : JumpsMatched
    [⟨OpCodeType.add, 1⟩, ⟨OpCodeType.jmpZero, 3⟩,
     ⟨OpCodeType.sub, 1⟩, ⟨OpCodeType.jmpNotZero, 1⟩] :=
  parse_ok_jumps_matched (Lexer.parse (bytes ("+[-]"))) _ (by
    simp [Parser.parse, Parser.parseGo, Parser.count_current_token, countRun, patchData,
      opAt, getAt, Lexer.parse, lexGo, bytes, Token.from_u8, TokenLoc.update_location,
      TokenLoc.new, usizeMax, OpCode.from_token, Token.is_groupable, Token.is_loop_token])

/-- C2: the program counter advances by exactly 1 after every dispatched
instruction: a taken JumpIfZero or JumpIfNonZero with target t leaves the
next fetch at t + 1, a non-taken jump and every other successful dispatch
leave it at the old pc + 1. -/
theorem step_pc_advances_by_one (vm : Vm) :
    ((opAt vm.program vm.pc).ty = OpCodeType.jmpZero → vm.get_cell = 0 →
      ∃ vm2, vm.step = Except.ok vm2 ∧ vm2.pc = (opAt vm.program vm.pc).data + 1)
    ∧ ((opAt vm.program vm.pc).ty = OpCodeType.jmpZero → vm.get_cell ≠ 0 →
      ∃ vm2, vm.step = Except.ok vm2 ∧ vm2.pc = vm.pc + 1)
    ∧ ((opAt vm.program vm.pc).ty = OpCodeType.jmpNotZero → vm.get_cell ≠ 0 →
      ∃ vm2, vm.step = Except.ok vm2 ∧ vm2.pc = (opAt vm.program vm.pc).data + 1)
    ∧ ((opAt vm.program vm.pc).ty = OpCodeType.jmpNotZero → vm.get_cell = 0 →
      ∃ vm2, vm.step = Except.ok vm2 ∧ vm2.pc = vm.pc + 1)
    ∧ (∀ vm2, vm.step = Except.ok vm2 →
      (opAt vm.program vm.pc).ty ≠ OpCodeType.jmpZero →
      (opAt vm.program vm.pc).ty ≠ OpCodeType.jmpNotZero →
      vm2.pc = vm.pc + 1) := by
  refine ⟨?_, ?_, ?_, ?_, ?_⟩
  · intro hty hc
    refine ⟨_, Vm.step_jump_zero vm hty, ?_⟩
    simp [Vm.jump_zero, hc, Vm.inc_pc]
  · intro hty hc
    refine ⟨_, Vm.step_jump_zero vm hty, ?_⟩
    simp [Vm.jump_zero, hc, Vm.inc_pc]
  · intro hty hc
    refine ⟨_, Vm.step_jump_not_zero vm hty, ?_⟩
    simp [Vm.jump_not_zero, hc, Vm.inc_pc]
  · intro hty hc
    refine ⟨_, Vm.step_jump_not_zero vm hty, ?_⟩
    simp [Vm.jump_not_zero, hc, Vm.inc_pc]
  · intro vm2 hok h1 h2
    cases hty : (opAt vm.program vm.pc).ty with
    | jmpZero => exact absurd hty h1
    | jmpNotZero => exact absurd hty h2
    | add =>
      rw [Vm.step_add vm hty] at hok
      cases hok
      rfl
    | sub =>
      rw [Vm.step_sub vm hty] at hok
      cases hok
      rfl
    | shiftLeft =>
      rw [Vm.step_shift_left vm hty] at hok
      cases hok
      rfl
    | printChar =>
      rw [Vm.step_print vm hty] at hok
      cases hok
      rfl
    | shiftRight =>
      rw [Vm.step_shift_right vm hty, except_map_ok] at hok
      obtain ⟨a, ha, rfl⟩ := hok
      rw [Vm.shift_right] at ha
      by_cases hc : vm.mem.length ≤ vm.mem_ptr + (opAt vm.program vm.pc).data
      · rw [if_pos hc] at ha
        cases ha
      · rw [if_neg hc] at ha
        cases ha
        rfl
    | inputChar =>
      rw [Vm.step_input vm hty, except_map_ok] at hok
      obtain ⟨a, ha, rfl⟩ := hok
      rw [Vm.input_char] at ha
      cases hst : vm.stdin with
      | nil =>
        rw [hst] at ha
        cases ha
      | cons c r =>
        rw [hst] at ha
        cases ha
        rfl

/-- Witness for C2: a taken JumpIfZero with target 5 leaves the pc at 6. -/
theorem step_pc_advances_by_one_w :
    ∃ vm2, Vm.step ⟨[⟨OpCodeType.jmpZero, 5⟩], 0, [0], 0, [], []⟩ = Except.ok vm2 ∧
      vm2.pc = 6 :=
  (step_pc_advances_by_one ⟨[⟨OpCodeType.jmpZero, 5⟩], 0, [0], 0, [], []⟩).1
    (by decide) (by decide)

/-- C3: the compiler folds each maximal run of identical groupable symbols
into one instruction whose operand is the run length, and the fixture
source with plus, shift and nested loop symbols compiles to exactly the
nine instructions of the specification, 0-based. -/
theorem folding_and_fixture :
    (∀ (t : Token) (locs : List TokenLoc) (rest : TokenList),
      t.is_groupable = true →
      (∀ td ∈ rest.head?, td.1 ≠ t) →
      Parser.count_current_token t (locs.map (fun l => (t, l)) ++ rest) =
        (1 + locs.length, rest))
    ∧ Parser.parse (Lexer.parse (bytes ("+++>>>>[[[--]]]"))) = Except.ok
      [⟨OpCodeType.add, 3⟩, ⟨OpCodeType.shiftRight, 4⟩,
       ⟨OpCodeType.jmpZero, 8⟩, ⟨OpCodeType.jmpZero, 7⟩, ⟨OpCodeType.jmpZero, 6⟩,
       ⟨OpCodeType.sub, 2⟩,
       ⟨OpCodeType.jmpNotZero, 4⟩, ⟨OpCodeType.jmpNotZero, 3⟩,
       ⟨OpCodeType.jmpNotZero, 2⟩] := by
  constructor
  · intro t locs rest hg hrest
    rw [Parser.count_current_token, if_pos hg, countRun_of_run t locs rest hrest]
  · simp [Parser.parse, Parser.parseGo, Parser.count_current_token, countRun, patchData,
      opAt, getAt, Lexer.parse, lexGo, bytes, Token.from_u8, TokenLoc.update_location,
      TokenLoc.new, usizeMax, OpCode.from_token, Token.is_groupable, Token.is_loop_token]

/-- Witness for C3: a run of two plus tokens before a minus folds to count 2. -/
theorem folding_and_fixture_w :
    Parser.count_current_token Token.plus
      ([(⟨1, 1⟩ : TokenLoc), ⟨2, 1⟩].map (fun l => (Token.plus, l)) ++
        [(Token.minus, ⟨3, 1⟩)]) = (1 + 2, [(Token.minus, ⟨3, 1⟩)]) :=
  folding_and_fixture.1 Token.plus [⟨1, 1⟩, ⟨2, 1⟩] [(Token.minus, ⟨3, 1⟩)]
    (by decide) (by simp)

/-- C4 counterexample: compiling a source of three unclosed opening brackets
produces the unclosed-delimiter error whose reported count is the total
number of unclosed brackets, 3, not the 2 additional ones beyond the named
innermost location as the claim states. -/
theorem unclosed_count_cx :
    Parser.parse (Lexer.parse (bytes ("[[["))) =
      Except.error (ParseError.unclosedLBracket ⟨3, 1⟩ 3) ∧ (3 : Nat) ≠ 3 - 1 := by
  constructor
  · simp [Parser.parse, Parser.parseGo, Parser.count_current_token, countRun, patchData,
      opAt, getAt, Lexer.parse, lexGo, bytes, Token.from_u8, TokenLoc.update_location,
      TokenLoc.new, usizeMax, OpCode.from_token, Token.is_groupable, Token.is_loop_token]
  · decide

/-- C4 (amended): compilation fails exactly when brackets are unmatched;
a LoopEnd with no open LoopStart fails with the unexpected-closing error
carrying that token's location, and leftover open LoopStarts fail with the
unclosed error naming the innermost still-open location and carrying the
total count of unclosed brackets, the named one included. -/
theorem parse_brackets_spec (ts : TokenList) :
    ((∃ q, Parser.parse ts = Except.ok q) ↔ bracketScan ts [] = Except.ok [])
    ∧ (∀ loc, Parser.parse ts = Except.error (ParseError.unexpectedRBracket loc) →
      bracketScan ts [] = Except.error loc)
    ∧ (∀ loc n, Parser.parse ts = Except.error (ParseError.unclosedLBracket loc n) →
      ∃ r, bracketScan ts [] = Except.ok (loc :: r) ∧ n = r.length + 1) := by
  have hscan := parseGo_scan ts.length ts (Nat.le_refl _) [] []
  refine ⟨⟨?_, ?_⟩, ?_, ?_⟩
  · intro hex
    obtain ⟨q, hq⟩ := hex
    have h2 := hscan.1 q hq
    simpa using h2
  · intro hb
    cases hp : Parser.parse ts with
    | ok q => exact ⟨q, rfl⟩
    | error e =>
      exfalso
      cases e with
      | unexpectedRBracket loc =>
        have h2 := hscan.2.1 loc hp
        simp only [List.map_nil] at h2
        rw [hb] at h2
        cases h2
      | unclosedLBracket loc n =>
        obtain ⟨r, hr1, hr2⟩ := hscan.2.2 loc n hp
        simp only [List.map_nil] at hr1
        rw [hb] at hr1
        simp at hr1
  · intro loc hp
    have h2 := hscan.2.1 loc hp
    simpa using h2
  · intro loc n hp
    obtain ⟨r, hr1, hr2⟩ := hscan.2.2 loc n hp
    refine ⟨r, ?_, hr2⟩
    simpa using hr1

/-- Witness for C4 (amended): two unclosed brackets report total count 2,
with the innermost open location named first. -/
theorem parse_brackets_spec_w :
    ∃ r, bracketScan (Lexer.parse (bytes ("[["))) [] =
      Except.ok ((⟨2, 1⟩ : TokenLoc) :: r) ∧ 2 = r.length + 1 :=
  (parse_brackets_spec (Lexer.parse (bytes ("[[")))).2.2 ⟨2, 1⟩ 2 (by
    simp [Parser.parse, Parser.parseGo, Parser.count_current_token, countRun, patchData,
      opAt, getAt, Lexer.parse, lexGo, bytes, Token.from_u8, TokenLoc.update_location,
      TokenLoc.new, usizeMax, OpCode.from_token, Token.is_groupable, Token.is_loop_token])

/-- C5: ShiftLeft saturates the cursor at 0 and never errors; ShiftRight
fails if and only if the advanced cursor reaches the tape length, reporting
the tape length and the overflow amount, and otherwise advances the cursor;
every successfully dispatched instruction keeps the cursor inside the tape;
with tape length 1 and cursor 0, ShiftRight by 2 fails. -/
theorem shift_bounds_spec :
    (∀ (vm : Vm) (n : Nat),
      ((vm.shift_left n).mem_ptr : Int) = max ((vm.mem_ptr : Int) - (n : Int)) 0 ∧
      (vm.shift_left n).mem = vm.mem)
    ∧ (∀ (vm : Vm) (n : Nat),
      (∃ e vm2, vm.shift_right n = Except.error (e, vm2)) ↔
        vm.mem.length ≤ vm.mem_ptr + n)
    ∧ (∀ (vm : Vm) (n : Nat), vm.mem_ptr + n < vm.mem.length →
      vm.shift_right n = Except.ok { vm with mem_ptr := vm.mem_ptr + n })
    ∧ (∀ (vm : Vm) (n : Nat) (e : VmError) (vm2 : Vm),
      vm.shift_right n = Except.error (e, vm2) →
      e = VmError.memOverflow vm.mem.length (vm.mem_ptr + n - vm.mem.length))
    ∧ (∀ (vm vm2 : Vm), vm.mem_ptr < vm.mem.length → vm.step = Except.ok vm2 →
      vm2.mem_ptr < vm2.mem.length)
    ∧ (∃ e vm2, Vm.shift_right ⟨[⟨OpCodeType.shiftRight, 2⟩], 0, [0], 0, [], []⟩ 2 =
        Except.error (e, vm2)) := by
  refine ⟨?_, ?_, ?_, ?_, ?_, ?_⟩
  · intro vm n
    constructor
    · simp only [Vm.shift_left]
      omega
    · rfl
  · intro vm n
    rw [Vm.shift_right]
    by_cases hc : vm.mem.length ≤ vm.mem_ptr + n
    · rw [if_pos hc]
      constructor
      · intro _
        exact hc
      · intro _
        exact ⟨_, _, rfl⟩
    · rw [if_neg hc]
      constructor
      · intro hex
        obtain ⟨e, vm2, hcon⟩ := hex
        cases hcon
      · intro h2
        exact absurd h2 hc
  · intro vm n h
    rw [Vm.shift_right, if_neg (by omega)]
  · intro vm n e vm2 h
    rw [Vm.shift_right] at h
    by_cases hc : vm.mem.length ≤ vm.mem_ptr + n
    · rw [if_pos hc] at h
      simp only [Except.error.injEq, Prod.mk.injEq] at h
      exact h.1.symm
    · rw [if_neg hc] at h
      cases h
  · exact fun vm vm2 => step_ok_preserves_bounds vm vm2
  · exact ⟨VmError.memOverflow 1 1, ⟨[⟨OpCodeType.shiftRight, 2⟩], 0, [0], 2, [], []⟩, rfl⟩

/-- Witness for C5: an in-bounds ShiftRight advances the cursor. -/
theorem shift_bounds_spec_w :
    Vm.shift_right ⟨[], 0, [0, 0, 0], 0, [], []⟩ 1 =
      Except.ok ⟨[], 0, [0, 0, 0], 1, [], []⟩ :=
  shift_bounds_spec.2.2.1 ⟨[], 0, [0, 0, 0], 0, [], []⟩ 1 (by decide)

/-- C6: machine construction validates the program and fails if and only if
some Add or Sub operand is not strictly below 255, with the
operand-out-of-range error and no machine produced; on success the machine
starts with the zero-filled default tape of 30000 cells, cursor 0 and
program counter 0. -/
theorem from_program_validates (p : Program) (stdin : List Nat) :
    ((∃ vm, Vm.from_program p stdin = Except.ok vm) ↔
      ∀ op ∈ p, (op.ty = OpCodeType.add ∨ op.ty = OpCodeType.sub) → op.data < 255)
    ∧ (∀ vm, Vm.from_program p stdin = Except.ok vm →
      vm = ⟨p, 0, List.replicate 30000 0, 0, stdin, []⟩)
    ∧ (∀ e, Vm.from_program p stdin = Except.error e →
      ∃ op ∈ p, (op.ty = OpCodeType.add ∨ op.ty = OpCodeType.sub) ∧
        255 ≤ op.data ∧ e = VmError.operandOutOfRange op.data) := by
  refine ⟨⟨?_, ?_⟩, ?_, ?_⟩
  · intro hex
    obtain ⟨vm, hvm⟩ := hex
    rw [Vm.from_program, except_map_ok] at hvm
    obtain ⟨u, hu, _⟩ := hvm
    cases u
    exact (verify_program_ok_iff p).mp hu
  · intro hall
    refine ⟨⟨p, 0, List.replicate DEFAULT_VM_MEM_SIZE 0, 0, stdin, []⟩, ?_⟩
    rw [Vm.from_program, (verify_program_ok_iff p).mpr hall]
    rfl
  · intro vm hvm
    rw [Vm.from_program, except_map_ok] at hvm
    obtain ⟨u, hu, hv⟩ := hvm
    exact hv
  · intro e he
    rw [Vm.from_program, except_map_error] at he
    exact verify_program_error p e he

/-- Witness for C6: a program whose Add operand is below 255 constructs. -/
theorem from_program_validates_w :
    ∃ vm, Vm.from_program [⟨OpCodeType.add, 2⟩] [] = Except.ok vm :=
  (from_program_validates [⟨OpCodeType.add, 2⟩] []).1.mpr (by decide)

/-- C7: dispatching Add with operand n turns cell value v into
(v + n) mod 256 and Sub turns it into (v - n) mod 256 over the integers,
touching no other cell; 250 plus 10 wraps to 4 and 2 minus 5 wraps to 253. -/
theorem cell_arith_wraps :
    (∀ (vm : Vm) (n : Nat), vm.mem_ptr < vm.mem.length →
      (vm.add_to_cell n).get_cell = (vm.get_cell + n) % 256 ∧
      ((vm.sub_to_cell n).get_cell : Int) = ((vm.get_cell : Int) - (n : Int)) % 256)
    ∧ (∀ (vm : Vm) (n j : Nat), j ≠ vm.mem_ptr →
      getAt 0 (vm.add_to_cell n).mem j = getAt 0 vm.mem j ∧
      getAt 0 (vm.sub_to_cell n).mem j = getAt 0 vm.mem j)
    ∧ (Vm.get_cell (Vm.add_to_cell ⟨[], 0, [250], 0, [], []⟩ 10) = 4
      ∧ Vm.get_cell (Vm.sub_to_cell ⟨[], 0, [2], 0, [], []⟩ 5) = 253) := by
  refine ⟨?_, ?_, by decide, by decide⟩
  · intro vm n hb
    constructor
    · simp only [Vm.add_to_cell, Vm.set_cell, Vm.get_cell]
      rw [getAt_set_self 0 vm.mem vm.mem_ptr _ hb]
      omega
    · simp only [Vm.sub_to_cell, Vm.set_cell, Vm.get_cell]
      rw [getAt_set_self 0 vm.mem vm.mem_ptr _ hb]
      omega
  · intro vm n j hne
    constructor
    · simp only [Vm.add_to_cell, Vm.set_cell]
      exact getAt_set_ne 0 vm.mem j vm.mem_ptr _ hne
    · simp only [Vm.sub_to_cell, Vm.set_cell]
      exact getAt_set_ne 0 vm.mem j vm.mem_ptr _ hne

/-- Witness for C7: wraparound at an in-bounds cursor on a one-cell tape. -/
theorem cell_arith_wraps_w :
    Vm.get_cell (Vm.add_to_cell ⟨[], 0, [7], 0, [], []⟩ 300) = (7 + 300) % 256 ∧
    (Vm.get_cell (Vm.sub_to_cell ⟨[], 0, [7], 0, [], []⟩ 300) : Int) =
      ((7 : Int) - (300 : Int)) % 256 :=
  cell_arith_wraps.1 ⟨[], 0, [7], 0, [], []⟩ 300 (by decide)

/-- C8: dispatching Input reads exactly one unit from the input source into
the current cell no matter the folded operand, and a read failure
(end of input) is a fatal runtime error propagated immediately by the run
loop with the machine state unchanged. -/
theorem input_reads_one_unit (vm : Vm) (n : Nat) :
    (∀ c rest, vm.stdin = c :: rest →
      vm.input_char n = Except.ok ({ vm with stdin := rest }.set_cell (c % 256)))
    ∧ (vm.stdin = [] → vm.input_char n = Except.error (VmError.inputEof, vm))
    ∧ (∀ c rest, vm.stdin = c :: rest →
      (opAt vm.program vm.pc).ty = OpCodeType.inputChar →
      ∃ vm2, vm.step = Except.ok vm2 ∧ vm2.stdin = rest)
    ∧ (vm.stdin = [] → (opAt vm.program vm.pc).ty = OpCodeType.inputChar →
      vm.pc < vm.program.length →
      ∀ fuel, Vm.run (fuel + 1) vm = RunResult.fail VmError.inputEof vm) := by
  refine ⟨?_, ?_, ?_, ?_⟩
  · intro c rest hst
    rw [Vm.input_char, hst]
  · intro hst
    rw [Vm.input_char, hst]
  · intro c rest hst hty
    refine ⟨({ vm with stdin := rest }.set_cell (c % 256)).inc_pc, ?_, ?_⟩
    · rw [Vm.step_input vm hty, Vm.input_char, hst]
      rfl
    · rfl
  · intro hst hty hpc fuel
    rw [Vm.run, if_pos hpc, Vm.step_input vm hty, Vm.input_char, hst]
    rfl

/-- Witness for C8: a folded Input with operand 3 consumes one byte. -/
theorem input_reads_one_unit_w :
    Vm.input_char ⟨[], 0, [0], 0, [9, 9], []⟩ 3 =
      Except.ok (Vm.set_cell ⟨[], 0, [0], 0, [9], []⟩ (9 % 256)) :=
  (input_reads_one_unit ⟨[], 0, [0], 0, [9, 9], []⟩ 3).1 9 [9] rfl

/-- C9: the tokenizer counts lines from 1 and columns from 0, bumping the
column per scanned byte and resetting it while bumping the line at each
newline, recording the position reached just after the current byte; the
multi-line fixture input lexes to exactly the six expected located tokens. -/
theorem lexer_location_fixture :
    (∀ loc : TokenLoc, TokenLoc.update_location loc 10 = ⟨0, loc.line + 1⟩)
    ∧ (∀ (loc : TokenLoc) (ch : Nat), ch ≠ 10 →
      TokenLoc.update_location loc ch = ⟨loc.col + 1, loc.line⟩)
    ∧ Lexer.parse (bytes ("\n-fa+[d\n[\ndf<>!\n!()*")) =
      [(Token.minus, ⟨1, 2⟩), (Token.plus, ⟨4, 2⟩), (Token.lbracket, ⟨5, 2⟩),
       (Token.lbracket, ⟨1, 3⟩), (Token.less, ⟨3, 4⟩), (Token.greater, ⟨4, 4⟩)] := by
  refine ⟨?_, ?_, by decide⟩
  · intro loc
    rw [TokenLoc.update_location, if_pos rfl]
  · intro loc ch h
    rw [TokenLoc.update_location, if_neg h]

/-- Witness for C9: a non-newline byte bumps the column and keeps the line. -/
theorem lexer_location_fixture_w :
    TokenLoc.update_location ⟨0, 1⟩ 97 = ⟨1, 1⟩ :=
  lexer_location_fixture.2.1 ⟨0, 1⟩ 97 (by decide)

/-- C10: when ShiftRight fails the bounds check, the cursor has already been
advanced to the out-of-bounds value and is not rolled back: the state the
aborted run leaves behind has its cursor at or beyond the tape length and
its program counter still on the failing ShiftRight instruction, so the
in-bounds cursor invariant does not hold for that state. -/
theorem overflow_leaves_cursor_out :
    (∀ (vm vm2 : Vm) (e : VmError),
      (opAt vm.program vm.pc).ty = OpCodeType.shiftRight →
      vm.step = Except.error (e, vm2) →
      vm2 = { vm with mem_ptr := vm.mem_ptr + (opAt vm.program vm.pc).data } ∧
      vm.mem.length ≤ vm.mem_ptr + (opAt vm.program vm.pc).data ∧
      e = VmError.memOverflow vm.mem.length
        (vm.mem_ptr + (opAt vm.program vm.pc).data - vm.mem.length))
    ∧ (∀ (fuel : Nat) (vm vm2 : Vm) (m k : Nat),
      Vm.run fuel vm = RunResult.fail (VmError.memOverflow m k) vm2 →
      vm2.mem.length ≤ vm2.mem_ptr ∧
      (opAt vm2.program vm2.pc).ty = OpCodeType.shiftRight ∧
      vm2.pc < vm2.program.length ∧
      m = vm2.mem.length ∧ vm2.mem_ptr = m + k) := by
  constructor
  · intro vm vm2 e hty h
    rw [Vm.step_shift_right vm hty, except_map_error, Vm.shift_right] at h
    by_cases hc : vm.mem.length ≤ vm.mem_ptr + (opAt vm.program vm.pc).data
    · rw [if_pos hc] at h
      simp only [Except.error.injEq, Prod.mk.injEq] at h
      exact ⟨h.2.symm, hc, h.1.symm⟩
    · rw [if_neg hc] at h
      cases h
  · intro fuel vm vm2 m k h
    exact run_overflow fuel vm vm2 m k h

/-- Witness for C10: on a one-cell tape, ShiftRight by 2 aborts the run with
the cursor left at 2, beyond the tape length 1, and the pc still at the
failing instruction. -/
theorem overflow_leaves_cursor_out_w :
    1 ≤ 2 ∧ (opAt [⟨OpCodeType.shiftRight, 2⟩] 0).ty = OpCodeType.shiftRight ∧
    0 < 1 ∧ 1 = 1 ∧ 2 = 1 + 1 :=
  overflow_leaves_cursor_out.2 1 ⟨[⟨OpCodeType.shiftRight, 2⟩], 0, [0], 0, [], []⟩
    ⟨[⟨OpCodeType.shiftRight, 2⟩], 0, [0], 2, [], []⟩ 1 1 (by decide)
